import Mathlib

/-!
Verification of the frequency-inference estimator core (`estimators.py`).

The Python source is shallowly embedded over the real numbers: numpy arrays
of length `N` become functions `Fin N → ℝ`, in-place mutation becomes pure
state-to-state functions, and every random draw made by the source
(`np.random.normal`, `np.random.exponential`, `np.random.uniform`,
`np.random.binomial`, `deterministic_sample`) becomes an explicit argument
of the embedded operation, so each theorem quantifies over the draws its
operation consumes.
-/

namespace FreqEst

open Real Finset

noncomputable section

/-! ### Module-level constants (estimators.py lines 14-17) -/

/-- Fact: `omega_min = 0.1` : lower bound of the frequency domain. -/
def omega_min : ℝ := 0.1

/-- Fact: `omega_max = 1.9` : upper bound of the frequency domain. -/
def omega_max : ℝ := 1.9

/-- Fact: `v_0 = 0.` : decoherence rate. -/
def v_0 : ℝ := 0

/-- Fact: `t_max = 4. * np.pi` : largest allowed measurement time. -/
def t_max : ℝ := 4 * π

/-! ### Physical model (estimators.py lines 23-62) -/

/-- Fact: `prob_excited(t, omega) = 0.5 * (1 - exp(-0.5*v_0*t) * cos(omega*t))`. -/
def prob_excited (t omega : ℝ) : ℝ :=
  0.5 * (1 - Real.exp (-(0.5) * v_0 * t) * Real.cos (omega * t))

/-- Fact: `likelihood(omega, t, m) = pe*m + (1-pe)*(1-m)` with `m ∈ {0,1}`. -/
def likelihood (omega t : ℝ) (m : ℕ) : ℝ :=
  prob_excited t omega * m + (1 - prob_excited t omega) * (1 - (m : ℝ))

/-- Fact: `clip_omega(x) = np.clip(x, omega_min, omega_max)`. -/
def clip_omega (x : ℝ) : ℝ := min (max x omega_min) omega_max

/-- Fact: `perturb_omega(omega, v1) = clip_omega(omega + np.random.normal(0, sqrt(v1)))`.
The Gaussian draw is passed in explicitly as `eps`; note that the source calls
`np.random.normal` without a `size` argument, so a single scalar draw is made
per call even when `omega` is an array. -/
def perturb_omega (omega eps : ℝ) : ℝ := clip_omega (omega + eps)

/-- Fact: `normalize(dist) = dist / np.sum(dist)`. -/
def normalize {N : ℕ} (dist : Fin N → ℝ) : Fin N → ℝ :=
  fun i => dist i / ∑ j, dist j

/-! ### GridDist1D (estimators.py lines 86-107) -/

/-- State of a `GridDist1D`: a regular grid of `N` omega nodes carrying a
probability mass array, plus the (fixed) drift variance `v1`.  The
constructor's `assert omegas.size == prior.size` is enforced by typing. -/
structure GridDist1D (N : ℕ) where
  omegas : Fin N → ℝ
  dist : Fin N → ℝ
  v1 : ℝ

/-- Angle `π * k * (2n+1) / (2N)` appearing in the type-II DCT basis used by
`scipy.fftpack.dct`/`idct` with their default `type=2, norm=None`. -/
def dctAngle (N k n : ℕ) : ℝ := π * k * (2 * n + 1) / (2 * N)

/-- Fact: `scipy.fftpack.dct(x)` (type II, unnormalized):
`y[k] = 2 * Σ_n x[n] * cos(π k (2n+1) / (2N))`. -/
def dct2 (N : ℕ) (x : Fin N → ℝ) (k : ℕ) : ℝ :=
  2 * ∑ n : Fin N, x n * Real.cos (dctAngle N k n)

/-- Fact: `scipy.fftpack.idct(y)` (type II, unnormalized), i.e. the type-III DCT:
`z[n] = y[0] + 2 * Σ_{k=1}^{N-1} y[k] * cos(π k (2n+1) / (2N))`, written as a
single weighted sum. -/
def idct3 (N : ℕ) (y : ℕ → ℝ) (n : ℕ) : ℝ :=
  ∑ k : Fin N, (if (k : ℕ) = 0 then 1 else 2) * y k * Real.cos (dctAngle N k n)

/-- The spectral update factor `fact = v1 * π² / (2 * (omega_max-omega_min)²)`
of `GridDist1D.wait_u`. -/
def fact (v1 : ℝ) : ℝ := v1 * π ^ 2 / (2 * (omega_max - omega_min) ^ 2)

/-- Fact: `GridDist1D.wait_u`: transform the mass array to the cosine basis, damp
frequency component `n` by `exp(-fact * n²)`, transform back and divide by
`2N` (the scale factor of the unnormalized inverse transform). -/
def GridDist1D.wait_u {N : ℕ} (S : GridDist1D N) : GridDist1D N :=
  { S with
    dist := fun n =>
      idct3 N (fun k => dct2 N S.dist k * Real.exp (-(fact S.v1) * (k : ℝ) ^ 2)) n
        / (2 * N) }

/-- Fact: `GridDist1D.update(t, m)`: elementwise Bayes multiply then renormalize. -/
def GridDist1D.update {N : ℕ} (S : GridDist1D N) (t : ℝ) (m : ℕ) : GridDist1D N :=
  { S with dist := normalize (fun i => S.dist i * likelihood (S.omegas i) t m) }

/-! ### DynamicDist1D (estimators.py lines 109-151) -/

/-- State of a `DynamicDist1D`: `size` weighted particles over omega with a
per-trial drift variance `v1` and the filter's running target covariance. -/
structure DynamicDist1D (size : ℕ) where
  omegas : Fin size → ℝ
  dist : Fin size → ℝ
  v1 : ℝ
  target_cov : ℝ

/-- Fact: `n_ess_limit = 0.5` : resample when the effective sample size falls below
this fraction of the particle count. -/
def n_ess_limit : ℝ := 0.5

/-- Fact: `a = 0.1` : fudge factor preventing `target_cov` from degenerating. -/
def dyn_a : ℝ := 0.1

/-- Fact: `b = 1.2` : inflation fudge factor applied when re-injecting variance. -/
def dyn_b : ℝ := 1.2

/-- Fact: `np.cov(x, ddof=0, aweights=w)`: the `w`-weighted covariance
`Σ w_i (x_i - μ)² / Σ w_i` with `μ = Σ w_i x_i / Σ w_i`. -/
def wcov {n : ℕ} (w x : Fin n → ℝ) : ℝ :=
  (∑ i, w i * (x i - (∑ j, w j * x j) / (∑ j, w j)) ^ 2) / (∑ j, w j)

/-- Fact: `DynamicDist1D.cov()`. -/
def DynamicDist1D.cov {n : ℕ} (S : DynamicDist1D n) : ℝ := wcov S.dist S.omegas

/-- Fact: `DynamicDist1D.n_ess() = 1 / Σ dist²`. -/
def DynamicDist1D.n_ess {n : ℕ} (dist : Fin n → ℝ) : ℝ := 1 / ∑ i, dist i ^ 2

/-- Fact: `DynamicDist1D.wait_u`: `self.omegas = perturb_omega(self.omegas, self.v1)`
and `self.target_cov += self.v1`.  Because `perturb_omega` draws a single
scalar Gaussian (no `size` argument), the same draw `eps` is added to every
particle. -/
def DynamicDist1D.wait_u {n : ℕ} (S : DynamicDist1D n) (eps : ℝ) : DynamicDist1D n :=
  { S with
    omegas := fun i => perturb_omega (S.omegas i) eps
    target_cov := S.target_cov + S.v1 }

/-- Modelled from the spec: §4.3 `waitU()` says the drift step is applied
"independently to every particle's Ω", i.e. each particle receives its own
Gaussian draw `eps i`.  This is the behaviour the spec describes; it is
compared against the source's `DynamicDist1D.wait_u`, which shares one draw. -/
def DynamicDist1D.wait_u_indep {n : ℕ} (S : DynamicDist1D n) (eps : Fin n → ℝ) :
    DynamicDist1D n :=
  { S with
    omegas := fun i => perturb_omega (S.omegas i) (eps i)
    target_cov := S.target_cov + S.v1 }

/-- Fact: `DynamicDist1D.resample()`.  `idx` stands for the index array returned by
`deterministic_sample(size, dist)` (defined in the repository's `util.py`,
outside the core source); `u1 i` and `u2 i` are the two unit-scale exponential
draws for particle `i`, so that `np.random.exponential(scale=s)` is `s * u`. -/
def DynamicDist1D.resample {n : ℕ} (S : DynamicDist1D n) (idx : Fin n → Fin n)
    (u1 u2 : Fin n → ℝ) : DynamicDist1D n :=
  let omegas' : Fin n → ℝ := fun i => S.omegas (idx i)
  let dist' : Fin n → ℝ := fun _ => 1 / n
  let cov_new := wcov dist' omegas'
  if cov_new > S.target_cov then
    { S with omegas := omegas', dist := dist', target_cov := cov_new }
  else
    let add_var := dyn_b * (S.target_cov - cov_new)
    let s := Real.sqrt (add_var / 2)
    { S with
      omegas := fun i => clip_omega (omegas' i + (s * u1 i - s * u2 i))
      dist := dist' }

/-- Fact: `DynamicDist1D.update(t, m)`: reweight, renormalize, track `target_cov`
multiplicatively (floored by `a`), and resample when the effective sample size
drops below `n_ess_limit * size`.  The arguments `idx`, `u1`, `u2` feed the
conditional `resample()` call. -/
def DynamicDist1D.update {n : ℕ} (S : DynamicDist1D n) (t : ℝ) (m : ℕ)
    (idx : Fin n → Fin n) (u1 u2 : Fin n → ℝ) : DynamicDist1D n :=
  let old_cov := S.cov
  let d2 := normalize (fun i => S.dist i * likelihood (S.omegas i) t m)
  let S' : DynamicDist1D n := { S with dist := d2 }
  let new_cov := S'.cov
  let S'' : DynamicDist1D n :=
    { S' with target_cov := S.target_cov * max dyn_a (new_cov / old_cov) }
  if DynamicDist1D.n_ess d2 < n_ess_limit * n then S''.resample idx u1 u2 else S''

/-! ### TwoPointChooser (estimators.py lines 208-245) -/

namespace TwoPointChooser

/-- Fact: `tau_n(n) = π (2n+1) / |omega1 - omega2|`. -/
def tau_n (omega1 omega2 nn : ℝ) : ℝ := π * (2 * nn + 1) / |omega1 - omega2|

/-- Fact: `tau_m(m) = π (2m+1) / (omega1 + omega2)`. -/
def tau_m (omega1 omega2 mm : ℝ) : ℝ := π * (2 * mm + 1) / (omega1 + omega2)

/-- The greedy `(n, m)` search loop of `get_t`: starting from the pair `nm`,
repeatedly advance whichever index has the smaller candidate time, stop when a
candidate exceeds `t_max`, and track the pair `best` minimizing
`|tau_n n - tau_m m|` (current minimum `mind`).  `fuel` is the remaining
iteration budget `search_depth - i`. -/
def search_loop (omega1 omega2 : ℝ) :
    ℕ → ℕ × ℕ → ℕ × ℕ → ℝ → ℕ × ℕ
  | 0, _, best, _ => best
  | fuel + 1, nm, best, mind =>
    let nm' : ℕ × ℕ :=
      if tau_n omega1 omega2 nm.1 < tau_m omega1 omega2 nm.2 then (nm.1 + 1, nm.2)
      else (nm.1, nm.2 + 1)
    if max (tau_n omega1 omega2 nm'.1) (tau_m omega1 omega2 nm'.2) > t_max then best
    else
      let d := |tau_n omega1 omega2 nm'.1 - tau_m omega1 omega2 nm'.2|
      if d < mind then search_loop omega1 omega2 fuel nm' nm' d
      else search_loop omega1 omega2 fuel nm' best mind

/-- The non-random part of `get_t` (everything after the 20% exploration
fallback).  `omega1`, `omega2` are the two extreme posterior samples and `uD`
is the uniform draw from `[0.7*t_max, t_max]` consumed by the degenerate
branch. -/
def get_t_main (search_depth : ℕ) (omega1 omega2 uD : ℝ) : ℝ :=
  if omega1 = omega2 then uD
  else if tau_m omega1 omega2 0 > t_max then t_max
  else if tau_n omega1 omega2 0 > t_max then
    tau_m omega1 omega2 ((⌊(t_max * (omega1 + omega2) / π - 1) / 2⌋ : ℤ) : ℝ)
  else
    let best := search_loop omega1 omega2 search_depth (0, 0) (0, 0)
      |tau_n omega1 omega2 0 - tau_m omega1 omega2 0|
    if tau_n omega1 omega2 best.1 > t_max then tau_m omega1 omega2 best.2
    else (tau_n omega1 omega2 best.1 + tau_m omega1 omega2 best.2) / 2

/-- Fact: `get_t`: with probability 0.2 (`coin = true`) return the uniform draw
`uR ∈ [0, t_max]`; otherwise run the adaptive branch on the sorted extreme
samples `omega1 ≤ omega2`. -/
def get_t (search_depth : ℕ) (coin : Bool) (uR uD omega1 omega2 : ℝ) : ℝ :=
  if coin then uR else get_t_main search_depth omega1 omega2 uD

end TwoPointChooser

/-! ### Estimator.many_measure (estimators.py lines 260-269) -/

/-- One iteration of the `many_measure` loop at step `i` with true frequency
`omega`: choose `t` from the current distribution, draw the outcome
`m = measure(omega, t)`, then apply `wait_u` followed by `update t m`.
`choose` and `meas` are the per-step random behaviours of
`self.chooser.get_t` and `measure`. -/
def stepState {σ : Type} (waitU : σ → σ) (update : ℝ → ℕ → σ → σ)
    (choose : ℕ → σ → ℝ) (meas : ℕ → ℝ → ℝ → ℕ) (i : ℕ) (omega : ℝ) (S : σ) : σ :=
  let t := choose i S
  update t (meas i omega t) (waitU S)

/-- Fact: `Estimator.many_measure(omega_list)`, generic over the distribution state
`σ` exactly as the Python loop is generic over `self.dist`: returns the list
of chosen times together with the final distribution state.  `i` is the
current loop index. -/
def many_measure {σ : Type} (waitU : σ → σ) (update : ℝ → ℕ → σ → σ)
    (choose : ℕ → σ → ℝ) (meas : ℕ → ℝ → ℝ → ℕ) :
    ℕ → List ℝ → σ → List ℝ × σ
  | _, [], S => ([], S)
  | i, omega :: rest, S =>
    let t := choose i S
    let m := meas i omega t
    let S' := update t m (waitU S)
    let r := many_measure waitU update choose meas (i + 1) rest S'
    (t :: r.1, r.2)

/-- The state after running the measurement loop over `omega_list`,
defined independently of `many_measure` by iterating `stepState`. -/
def run_state {σ : Type} (waitU : σ → σ) (update : ℝ → ℕ → σ → σ)
    (choose : ℕ → σ → ℝ) (meas : ℕ → ℝ → ℝ → ℕ) :
    ℕ → List ℝ → σ → σ
  | _, [], S => S
  | i, omega :: rest, S =>
    run_state waitU update choose meas (i + 1) rest
      (stepState waitU update choose meas i omega S)

/-! ### Derived quantities used by the spec's testable properties -/

/-- Variance of the Ω-marginal of a grid posterior,
`Σ p_i ω_i² - (Σ p_i ω_i)²` (the quantity of spec §8 "Diffusion
conservation"). -/
def gridVar {N : ℕ} (S : GridDist1D N) : ℝ :=
  (∑ i, S.dist i * S.omegas i ^ 2) - (∑ i, S.dist i * S.omegas i) ^ 2

/-! ### Call sequences of the two public mutators -/

/-- A public call on a `GridDist1D`: `wait_u()` or `update(t, m)`. -/
inductive GOp : Type
  | waitU : GOp
  | update (t : ℝ) (m : ℕ) : GOp

/-- Effect of one public call on a `GridDist1D`. -/
def gstep {N : ℕ} (S : GridDist1D N) : GOp → GridDist1D N
  | .waitU => S.wait_u
  | .update t m => S.update t m

/-- A public call on a `DynamicDist1D`, carrying the random draws it
consumes. -/
inductive DOp (n : ℕ) : Type
  | waitU (eps : ℝ) : DOp n
  | update (t : ℝ) (m : ℕ) (idx : Fin n → Fin n) (u1 u2 : Fin n → ℝ) : DOp n

/-- Effect of one public call on a `DynamicDist1D`. -/
def dstep {n : ℕ} (S : DynamicDist1D n) : DOp n → DynamicDist1D n
  | .waitU eps => S.wait_u eps
  | .update t m idx u1 u2 => S.update t m idx u1 u2

/-- Along a sequence of grid calls, every `update` keeps some posterior mass:
the reweighted (pre-normalization) mass is nonzero at the state where the
update is applied. -/
def gValid {N : ℕ} (S : GridDist1D N) : List GOp → Prop
  | [] => True
  | op :: rest =>
    (match op with
      | .waitU => True
      | .update t m => (∑ i, S.dist i * likelihood (S.omegas i) t m) ≠ 0)
    ∧ gValid (gstep S op) rest

/-- Along a sequence of particle calls, every `update` keeps some posterior
mass. -/
def dValid {n : ℕ} (S : DynamicDist1D n) : List (DOp n) → Prop
  | [] => True
  | op :: rest =>
    (match op with
      | .waitU _ => True
      | .update t m _ _ _ => (∑ i, S.dist i * likelihood (S.omegas i) t m) ≠ 0)
    ∧ dValid (dstep S op) rest

end

/-! ## Trigonometric sums underlying the spectral step -/

/-- Telescoping Dirichlet-type sum: `2 sin(θ/2) Σ_{k<M} cos(kθ) = sin(Mθ - θ/2) + sin(θ/2)`. -/
theorem sum_cos_mul (θ : ℝ) (M : ℕ) :
    2 * Real.sin (θ / 2) * ∑ k ∈ Finset.range M, Real.cos (k * θ)
      = Real.sin (M * θ - θ / 2) + Real.sin (θ / 2) := by
  induction M with
  | zero => simp [Real.sin_neg]
  | succ M ih =>
    rw [Finset.sum_range_succ, mul_add, ih]
    have h := Real.sin_sub_sin (((M : ℝ) + 1) * θ - θ / 2) ((M : ℝ) * θ - θ / 2)
    have h1 : (((M : ℝ) + 1) * θ - θ / 2 - ((M : ℝ) * θ - θ / 2)) / 2 = θ / 2 := by ring
    have h2 : (((M : ℝ) + 1) * θ - θ / 2 + ((M : ℝ) * θ - θ / 2)) / 2 = (M : ℝ) * θ := by
      ring
    rw [h1, h2] at h
    push_cast
    linarith [h]

/-- Telescoping sum over odd multiples: `2 sin(φ) Σ_{n<M} cos((2n+1)φ) = sin(2Mφ)`. -/
theorem sum_cos_odd_mul (φ : ℝ) (M : ℕ) :
    2 * Real.sin φ * ∑ n ∈ Finset.range M, Real.cos ((2 * n + 1) * φ)
      = Real.sin (2 * M * φ) := by
  induction M with
  | zero => simp
  | succ M ih =>
    rw [Finset.sum_range_succ, mul_add, ih]
    have h := Real.sin_sub_sin (2 * ((M : ℝ) + 1) * φ) (2 * (M : ℝ) * φ)
    have h1 : (2 * ((M : ℝ) + 1) * φ - 2 * (M : ℝ) * φ) / 2 = φ := by ring
    have h2 : (2 * ((M : ℝ) + 1) * φ + 2 * (M : ℝ) * φ) / 2 = (2 * (M : ℝ) + 1) * φ := by
      ring
    rw [h1, h2] at h
    push_cast
    linarith [h]

/-- For an integer `j` with `sin(πj/(2N)) ≠ 0`,
`Σ_{k<N} cos(k·πj/N) = (1 - cos(πj))/2`. -/
theorem sum_cos_int (N : ℕ) (j : ℤ) (hs : Real.sin (π * j / (2 * N)) ≠ 0) :
    ∑ k ∈ Finset.range N, Real.cos ((k : ℝ) * (π * j / N)) = (1 - Real.cos (π * j)) / 2 := by
  have hN : (N : ℝ) ≠ 0 := by
    intro h0
    apply hs
    rw [h0]
    simp
  set x := π * j / (2 * N) with hx
  have hθ : π * (j : ℝ) / N = 2 * x := by rw [hx]; field_simp; ring
  have hsum := sum_cos_mul (2 * x) N
  have hhalf : 2 * x / 2 = x := by ring
  rw [hhalf] at hsum
  have h2Nx : (N : ℝ) * (2 * x) - x = π * j - x := by rw [hx]; field_simp; ring
  rw [h2Nx] at hsum
  have hsin : Real.sin (π * j - x) = -Real.cos (π * j) * Real.sin x := by
    rw [Real.sin_sub]
    have hz : Real.sin (π * (j : ℝ)) = 0 := by
      rw [mul_comm]; exact Real.sin_int_mul_pi j
    rw [hz]; ring
  rw [hsin, ← hθ] at hsum
  refine mul_left_cancel₀ (mul_ne_zero two_ne_zero hs) ?_
  rw [hsum]
  ring

/-- Fact: `sin(πj/(2N)) ≠ 0` whenever `j ≠ 0` and `|j| < 2N`. -/
theorem sin_pi_mul_div_ne_zero (N : ℕ) (j : ℤ) (h0 : j ≠ 0) (hN : |j| < 2 * N) :
    Real.sin (π * j / (2 * N)) ≠ 0 := by
  have hNZ : 0 < (N : ℤ) := by
    have := abs_nonneg j
    omega
  have hNpos : 0 < (N : ℝ) := by exact_mod_cast hNZ
  have key : ∀ i : ℤ, 0 < i → i < 2 * N → Real.sin (π * i / (2 * N)) ≠ 0 := by
    intro i hi h2
    have hipos : (0 : ℝ) < (i : ℝ) := by exact_mod_cast hi
    have hx : 0 < π * i / (2 * N) :=
      div_pos (mul_pos Real.pi_pos hipos) (by positivity)
    have hi2 : (i : ℝ) < 2 * N := by exact_mod_cast h2
    have hxlt : π * i / (2 * N) < π := by
      rw [div_lt_iff₀ (by positivity)]
      nlinarith [Real.pi_pos]
    exact ne_of_gt (Real.sin_pos_of_pos_of_lt_pi hx hxlt)
  rcases h0.lt_or_lt with hneg | hpos
  · have hk := key (-j) (by omega) (by rw [abs_of_neg hneg] at hN; omega)
    intro hcontra
    apply hk
    have hflip : π * ((-j : ℤ) : ℝ) / (2 * N) = -(π * j / (2 * N)) := by push_cast; ring
    rw [hflip, Real.sin_neg, hcontra, neg_zero]
  · exact key j hpos (by rwa [abs_of_pos hpos] at hN)

/-- Fact: `cos(π(2m+1)) = -1` for integer `m`. -/
theorem cos_pi_mul_odd (m : ℤ) : Real.cos (π * (2 * m + 1)) = -1 := by
  have h : π * (2 * (m : ℝ) + 1) = (m : ℝ) * (2 * π) + π := by ring
  rw [h, Real.cos_int_mul_two_pi_add_pi]

/-- Splitting off the halved `k = 0` weight of the type-III DCT:
`Σ_{k<N} w_k h_k = 2 Σ_{k<N} h_k - h_0` where `w_0 = 1` and `w_k = 2` else. -/
theorem sum_dct_weights (N : ℕ) (hN : 0 < N) (h : ℕ → ℝ) :
    ∑ k ∈ Finset.range N, (if k = 0 then (1 : ℝ) else 2) * h k
      = 2 * ∑ k ∈ Finset.range N, h k - h 0 := by
  have hsplit : ∀ k ∈ Finset.range N,
      (if k = 0 then (1 : ℝ) else 2) * h k = 2 * h k - (if k = 0 then h k else 0) := by
    intro k _
    by_cases hk : k = 0
    · simp only [hk, if_pos]
      ring
    · simp [hk]
  rw [Finset.sum_congr rfl hsplit, Finset.sum_sub_distrib, ← Finset.mul_sum,
    Finset.sum_ite_eq' (Finset.range N) 0 h, if_pos (Finset.mem_range.mpr hN)]

/-- Product-to-sum conversion for two DCT basis angles at row `k`. -/
theorem cos_dctAngle_mul (N k m n : ℕ) (hN : (N : ℝ) ≠ 0) :
    Real.cos (dctAngle N k m) * Real.cos (dctAngle N k n)
      = (Real.cos ((k : ℝ) * (π * (((m : ℤ) - n : ℤ) : ℝ) / N))
          + Real.cos ((k : ℝ) * (π * (((m : ℤ) + n + 1 : ℤ) : ℝ) / N))) / 2 := by
  have hA : dctAngle N k m - dctAngle N k n
      = (k : ℝ) * (π * (((m : ℤ) - n : ℤ) : ℝ) / N) := by
    unfold dctAngle
    push_cast
    field_simp
    ring
  have hB : dctAngle N k m + dctAngle N k n
      = (k : ℝ) * (π * (((m : ℤ) + n + 1 : ℤ) : ℝ) / N) := by
    unfold dctAngle
    push_cast
    field_simp
    ring
  have key : Real.cos (dctAngle N k m - dctAngle N k n)
      + Real.cos (dctAngle N k m + dctAngle N k n)
      = 2 * (Real.cos (dctAngle N k m) * Real.cos (dctAngle N k n)) := by
    rw [Real.cos_sub, Real.cos_add]
    ring
  rw [hA, hB] at key
  linarith [key]

/-- Fact: `sum_cos_int` with the nonvanishing hypothesis replaced by integer bounds. -/
theorem sum_cos_int_of_bounds (N : ℕ) (j : ℤ) (h0 : j ≠ 0) (hj : |j| < 2 * N) :
    ∑ k ∈ Finset.range N, Real.cos ((k : ℝ) * (π * j / N))
      = (1 - Real.cos (π * j)) / 2 :=
  sum_cos_int N j (sin_pi_mul_div_ne_zero N j h0 hj)

/-- Orthogonality of the unnormalized DCT basis columns:
`Σ_k w_k cos(a_{km}) cos(a_{kn}) = N·δ_{mn}`. -/
theorem dct_orth (N : ℕ) (m n : Fin N) :
    ∑ k : Fin N, (if (k : ℕ) = 0 then (1 : ℝ) else 2) *
        (Real.cos (dctAngle N k m) * Real.cos (dctAngle N k n))
      = if m = n then (N : ℝ) else 0 := by
  have hN : 0 < N := m.pos
  have hNr : (N : ℝ) ≠ 0 := Nat.cast_ne_zero.mpr hN.ne'
  have hm := m.isLt
  have hn := n.isLt
  rw [Fin.sum_univ_eq_sum_range (fun k => (if k = 0 then (1 : ℝ) else 2) *
    (Real.cos (dctAngle N k m) * Real.cos (dctAngle N k n))) N]
  rw [Finset.sum_congr rfl (fun k _ => by rw [cos_dctAngle_mul N k m n hNr])]
  rw [sum_dct_weights N hN]
  rw [← Finset.sum_div, Finset.sum_add_distrib]
  have h0term : (Real.cos ((0 : ℕ) * (π * ((((m : ℕ) : ℤ) - ((n : ℕ) : ℤ) : ℤ) : ℝ) / N))
      + Real.cos ((0 : ℕ) * (π * ((((m : ℕ) : ℤ) + ((n : ℕ) : ℤ) + 1 : ℤ) : ℝ) / N))) / 2
      = 1 := by
    simp
  rw [h0term]
  have hD1 : ∑ k ∈ Finset.range N,
      Real.cos ((k : ℝ) * (π * ((((m : ℕ) : ℤ) + ((n : ℕ) : ℤ) + 1 : ℤ) : ℝ) / N))
      = (1 - Real.cos (π * ((((m : ℕ) : ℤ) + ((n : ℕ) : ℤ) + 1 : ℤ) : ℝ))) / 2 := by
    refine sum_cos_int_of_bounds N _ (by omega) ?_
    rw [abs_of_pos (by omega)]
    omega
  by_cases hmn : m = n
  · subst hmn
    have hD2 : ∑ k ∈ Finset.range N,
        Real.cos ((k : ℝ) * (π * ((((m : ℕ) : ℤ) - ((m : ℕ) : ℤ) : ℤ) : ℝ) / N))
        = (N : ℝ) := by
      have hone : ∀ k ∈ Finset.range N,
          Real.cos ((k : ℝ) * (π * ((((m : ℕ) : ℤ) - ((m : ℕ) : ℤ) : ℤ) : ℝ) / N)) = 1 := by
        intro k _
        simp
      rw [Finset.sum_congr rfl hone]
      simp
    have hcos1 : Real.cos (π * ((((m : ℕ) : ℤ) + ((m : ℕ) : ℤ) + 1 : ℤ) : ℝ)) = -1 := by
      have hc : (((((m : ℕ) : ℤ) + ((m : ℕ) : ℤ) + 1 : ℤ)) : ℝ)
          = 2 * (((m : ℕ) : ℤ) : ℝ) + 1 := by push_cast; ring
      rw [hc]
      exact cos_pi_mul_odd ((m : ℕ) : ℤ)
    rw [hD2, hD1, hcos1, if_pos rfl]
    ring
  · have hvne : ((m : ℕ) : ℤ) - ((n : ℕ) : ℤ) ≠ 0 := by
      have : (m : ℕ) ≠ (n : ℕ) := fun hc => hmn (Fin.ext hc)
      omega
    have hD2 : ∑ k ∈ Finset.range N,
        Real.cos ((k : ℝ) * (π * ((((m : ℕ) : ℤ) - ((n : ℕ) : ℤ) : ℤ) : ℝ) / N))
        = (1 - Real.cos (π * ((((m : ℕ) : ℤ) - ((n : ℕ) : ℤ) : ℤ) : ℝ))) / 2 := by
      refine sum_cos_int_of_bounds N _ hvne ?_
      rw [abs_lt]
      omega
    have hcos12 : Real.cos (π * ((((m : ℕ) : ℤ) + ((n : ℕ) : ℤ) + 1 : ℤ) : ℝ))
        = -Real.cos (π * ((((m : ℕ) : ℤ) - ((n : ℕ) : ℤ) : ℤ) : ℝ)) := by
      have hsplit1 : π * ((((m : ℕ) : ℤ) + ((n : ℕ) : ℤ) + 1 : ℤ) : ℝ)
          = π * ((((m : ℕ) : ℤ) - ((n : ℕ) : ℤ) : ℤ) : ℝ)
            + π * (2 * (((n : ℕ) : ℤ) : ℝ) + 1) := by
        push_cast
        ring
      rw [hsplit1, Real.cos_add, cos_pi_mul_odd ((n : ℕ) : ℤ)]
      have hz : Real.sin (π * (2 * (((n : ℕ) : ℤ) : ℝ) + 1)) = 0 := by
        have hc : π * (2 * (((n : ℕ) : ℤ) : ℝ) + 1)
            = ((2 * ((n : ℕ) : ℤ) + 1 : ℤ) : ℝ) * π := by push_cast; ring
        rw [hc, Real.sin_int_mul_pi]
      rw [hz]
      ring
    rw [hD2, hD1, hcos12, if_neg hmn]
    ring

/-- Inversion of the scipy transform pair: `idct(dct(x))[n] = 2N·x[n]`
(`norm=None` convention), the identity behind the `/(2·cos_coeffs.size)`
rescaling in `GridDist1D.wait_u`. -/
theorem idct_dct (N : ℕ) (x : Fin N → ℝ) (n : Fin N) :
    idct3 N (fun k => dct2 N x k) n = 2 * N * x n := by
  unfold idct3 dct2
  have hswap : ∀ k : Fin N,
      (if (k : ℕ) = 0 then (1 : ℝ) else 2) *
        (2 * ∑ m : Fin N, x m * Real.cos (dctAngle N k m)) * Real.cos (dctAngle N k n)
      = ∑ m : Fin N, x m *
          (2 * ((if (k : ℕ) = 0 then (1 : ℝ) else 2) *
            (Real.cos (dctAngle N k m) * Real.cos (dctAngle N k n)))) := by
    intro k
    have hfold : (if (k : ℕ) = 0 then (1 : ℝ) else 2) *
        (2 * ∑ m : Fin N, x m * Real.cos (dctAngle N k m)) * Real.cos (dctAngle N k n)
        = (2 * ((if (k : ℕ) = 0 then (1 : ℝ) else 2) * Real.cos (dctAngle N k n))) *
            ∑ m : Fin N, x m * Real.cos (dctAngle N k m) := by ring
    rw [hfold, Finset.mul_sum]
    exact Finset.sum_congr rfl (fun m _ => by ring)
  rw [Finset.sum_congr rfl (fun k _ => hswap k), Finset.sum_comm]
  have hinner : ∀ m : Fin N,
      (∑ k : Fin N, x m * (2 * ((if (k : ℕ) = 0 then (1 : ℝ) else 2) *
        (Real.cos (dctAngle N k m) * Real.cos (dctAngle N k n)))))
      = x m * 2 * (if m = n then (N : ℝ) else 0) := by
    intro m
    rw [← Finset.mul_sum, ← Finset.mul_sum, dct_orth N m n]
    ring
  rw [Finset.sum_congr rfl (fun m _ => hinner m)]
  have hite : ∀ m : Fin N,
      x m * 2 * (if m = n then (N : ℝ) else 0)
        = if m = n then x m * (2 * N) else 0 := by
    intro m
    by_cases hmn : m = n
    · simp only [hmn, if_pos]
      ring
    · simp [hmn]
  rw [Finset.sum_congr rfl (fun m _ => hite m),
    Finset.sum_ite_eq' Finset.univ n (fun m => x m * (2 * (N : ℝ))),
    if_pos (Finset.mem_univ n)]
  ring

/-- Each nonconstant DCT basis column sums to zero over the grid:
`Σ_{n<N} cos(πk(2n+1)/(2N)) = 0` for `0 < k < 2N`. -/
theorem sum_cos_dctAngle (N k : ℕ) (hk0 : k ≠ 0) (hkN : k < 2 * N) :
    ∑ n : Fin N, Real.cos (dctAngle N k n) = 0 := by
  have hN : 0 < N := by omega
  have hNr : (N : ℝ) ≠ 0 := Nat.cast_ne_zero.mpr hN.ne'
  set φ := π * k / (2 * N) with hφ
  have hang : ∀ n : ℕ, dctAngle N k n = (2 * (n : ℝ) + 1) * φ := by
    intro n
    rw [hφ]
    unfold dctAngle
    field_simp
    ring
  rw [Fin.sum_univ_eq_sum_range (fun n => Real.cos (dctAngle N k n)) N,
    Finset.sum_congr rfl (fun n _ => by rw [hang n])]
  have h2 := sum_cos_odd_mul φ N
  have h2N : 2 * (N : ℝ) * φ = (k : ℝ) * π := by rw [hφ]; field_simp; ring
  rw [h2N, Real.sin_nat_mul_pi] at h2
  have hsφ : Real.sin φ ≠ 0 := by
    have hx : 0 < φ := by
      rw [hφ]
      have : (0 : ℝ) < (k : ℝ) := by exact_mod_cast Nat.pos_of_ne_zero hk0
      positivity
    have hxlt : φ < π := by
      rw [hφ, div_lt_iff₀ (by positivity)]
      have : (k : ℝ) < 2 * N := by exact_mod_cast hkN
      nlinarith [Real.pi_pos]
    exact ne_of_gt (Real.sin_pos_of_pos_of_lt_pi hx hxlt)
  have := mul_left_cancel₀ (mul_ne_zero two_ne_zero hsφ) (h2.trans (mul_zero _).symm)
  linarith [this]

/-- Row sums of the inverse transform: `Σ_n idct3(y)[n] = N·y[0]`. -/
theorem idct3_sum (N : ℕ) (hN : 0 < N) (y : ℕ → ℝ) :
    ∑ n : Fin N, idct3 N y n = (N : ℝ) * y 0 := by
  unfold idct3
  rw [Finset.sum_comm]
  have hcol : ∀ k : Fin N,
      (∑ n : Fin N, (if (k : ℕ) = 0 then (1 : ℝ) else 2) * y k * Real.cos (dctAngle N k n))
      = if (k : ℕ) = 0 then (N : ℝ) * y 0 else 0 := by
    intro k
    rw [← Finset.mul_sum]
    by_cases hk : (k : ℕ) = 0
    · have hone : ∀ n : Fin N, Real.cos (dctAngle N (k : ℕ) (n : ℕ)) = 1 := by
        intro n
        rw [hk]
        unfold dctAngle
        simp
      rw [Finset.sum_congr rfl (fun n _ => hone n)]
      simp [hk]
      ring
    · rw [sum_cos_dctAngle N k hk (by omega)]
      simp [hk]
  rw [Finset.sum_congr rfl (fun k _ => hcol k)]
  rw [Fin.sum_univ_eq_sum_range (fun k => if k = 0 then (N : ℝ) * y 0 else 0) N,
    Finset.sum_ite_eq' (Finset.range N) 0 (fun _ => (N : ℝ) * y 0),
    if_pos (Finset.mem_range.mpr hN)]

/-! ## Behaviour of the public operations -/

/-- Fact: `normalize` produces unit mass whenever the input mass is nonzero. -/
theorem normalize_sum {N : ℕ} (d : Fin N → ℝ) (h : ∑ i, d i ≠ 0) :
    ∑ i, normalize d i = 1 := by
  unfold normalize
  rw [← Finset.sum_div]
  exact div_self h

/-- The zeroth cosine coefficient is twice the total mass. -/
theorem dct2_zero {N : ℕ} (x : Fin N → ℝ) : dct2 N x 0 = 2 * ∑ i, x i := by
  unfold dct2
  have hone : ∀ n : Fin N, x n * Real.cos (dctAngle N 0 (n : ℕ)) = x n := by
    intro n
    unfold dctAngle
    simp
  rw [Finset.sum_congr rfl (fun n _ => hone n)]

/-- Fact: `GridDist1D.wait_u` preserves the total mass exactly, with no explicit
renormalization: the constant mode is undamped and every other basis column
sums to zero over the grid. -/
theorem grid_wait_u_sum {N : ℕ} (hN : 0 < N) (S : GridDist1D N) :
    ∑ i, S.wait_u.dist i = ∑ i, S.dist i := by
  have hNr : (N : ℝ) ≠ 0 := Nat.cast_ne_zero.mpr hN.ne'
  unfold GridDist1D.wait_u
  simp only
  rw [← Finset.sum_div,
    idct3_sum N hN (fun k => dct2 N S.dist k * Real.exp (-(fact S.v1) * (k : ℝ) ^ 2))]
  have hy0 : dct2 N S.dist 0 * Real.exp (-(fact S.v1) * ((0 : ℕ) : ℝ) ^ 2)
      = 2 * ∑ i, S.dist i := by
    rw [dct2_zero]
    norm_num
  rw [hy0]
  field_simp
  ring

/-- With `v1 = 0` all damping factors are `1` and `wait_u` is the identity on
the mass array. -/
theorem grid_wait_u_noop {N : ℕ} (S : GridDist1D N) (hv : S.v1 = 0) :
    S.wait_u.dist = S.dist := by
  funext n
  unfold GridDist1D.wait_u
  simp only
  have hf : fact S.v1 = 0 := by
    rw [hv]
    unfold fact
    ring
  have hy : (fun k => dct2 N S.dist k * Real.exp (-(fact S.v1) * (k : ℝ) ^ 2))
      = fun k => dct2 N S.dist k := by
    funext k
    rw [hf]
    norm_num
  rw [hy, idct_dct N S.dist n]
  have hNr : (N : ℝ) ≠ 0 := Nat.cast_ne_zero.mpr n.pos.ne'
  field_simp

/-- Fact: `DynamicDist1D.resample` always leaves uniform weights. -/
theorem resample_dist {n : ℕ} (S : DynamicDist1D n) (idx : Fin n → Fin n)
    (u1 u2 : Fin n → ℝ) :
    (S.resample idx u1 u2).dist = fun _ => 1 / (n : ℝ) := by
  simp only [DynamicDist1D.resample]
  split
  · rfl
  · rfl

/-- Fact: `DynamicDist1D.update` yields unit weight mass when the reweighted mass is
nonzero. -/
theorem dyn_update_sum {n : ℕ} (hn : 0 < n) (S : DynamicDist1D n) (t : ℝ) (m : ℕ)
    (idx : Fin n → Fin n) (u1 u2 : Fin n → ℝ)
    (hmass : (∑ i, S.dist i * likelihood (S.omegas i) t m) ≠ 0) :
    ∑ i, (S.update t m idx u1 u2).dist i = 1 := by
  have hnr : (n : ℝ) ≠ 0 := Nat.cast_ne_zero.mpr hn.ne'
  simp only [DynamicDist1D.update]
  split
  · rw [resample_dist]
    rw [Finset.sum_const, Finset.card_univ, Fintype.card_fin, nsmul_eq_mul]
    field_simp
  · exact normalize_sum _ hmass

/-- Mass invariance for any valid sequence of grid calls. -/
theorem gops_sum {N : ℕ} :
    ∀ (ops : List GOp) (S : GridDist1D N), (∑ i, S.dist i) = 1 → gValid S ops →
      ∑ i, (ops.foldl gstep S).dist i = 1
  | [], S, h, _ => by simpa using h
  | op :: rest, S, h, hv => by
    have hN : 0 < N := by
      rcases Nat.eq_zero_or_pos N with h0 | h0
      · subst h0
        simp at h
      · exact h0
    have hstep : ∑ i, (gstep S op).dist i = 1 := by
      cases op with
      | waitU => rw [gstep, grid_wait_u_sum hN S, h]
      | update t m => exact normalize_sum _ hv.1
    exact gops_sum rest (gstep S op) hstep hv.2

/-- Mass invariance for any valid sequence of particle calls. -/
theorem dops_sum {n : ℕ} :
    ∀ (ops : List (DOp n)) (S : DynamicDist1D n), (∑ i, S.dist i) = 1 → dValid S ops →
      ∑ i, (ops.foldl dstep S).dist i = 1
  | [], S, h, _ => by simpa using h
  | op :: rest, S, h, hv => by
    have hn : 0 < n := by
      rcases Nat.eq_zero_or_pos n with h0 | h0
      · subst h0
        simp at h
      · exact h0
    have hstep : ∑ i, (dstep S op).dist i = 1 := by
      cases op with
      | waitU eps => rw [dstep]; exact h
      | update t m idx u1 u2 => exact dyn_update_sum hn S t m idx u1 u2 hv.1
    exact dops_sum rest (dstep S op) hstep hv.2

/-! ## Claim C1 -/

/-- Claim C1 (amended): starting from a normalized prior, any sequence of
`wait_u`/`update` calls on a `GridDist1D` or a `DynamicDist1D` leaves the
total probability mass equal to 1, provided every `update` in the sequence
keeps nonzero reweighted mass (without that proviso an `update` whose
likelihoods all vanish zeroes the posterior, see the counterexample).  In
particular `GridDist1D.wait_u` preserves the sum exactly through the DCT
round trip with no explicit renormalization. -/
theorem normalization_invariant {N n : ℕ} (G : GridDist1D N) (gops : List GOp)
    (D : DynamicDist1D n) (dops : List (DOp n))
    (hG : ∑ i, G.dist i = 1) (hgv : gValid G gops)
    (hD : ∑ i, D.dist i = 1) (hdv : dValid D dops) :
    ∑ i, (gops.foldl gstep G).dist i = 1 ∧ ∑ i, (dops.foldl dstep D).dist i = 1 :=
  ⟨gops_sum gops G hG hgv, dops_sum dops D hD hdv⟩

/-- Witness for C1: a one-node grid and a one-particle cloud, each running a
concrete call sequence (a `wait_u`, exercising the spectral round trip). -/
theorem normalization_invariant_witness :
    (∑ i, (⟨![1], ![1], 0⟩ : GridDist1D 1).dist i = 1)
    ∧ (∑ i, (⟨![1], ![1], 0, 0⟩ : DynamicDist1D 1).dist i = 1)
    ∧ ∑ i, ([GOp.waitU].foldl gstep (⟨![1], ![1], 0⟩ : GridDist1D 1)).dist i = 1
    ∧ ∑ i, (([DOp.waitU 0].foldl dstep (⟨![1], ![1], 0, 0⟩ : DynamicDist1D 1)).dist) i = 1 := by
  have h1 : ∑ i, (⟨![1], ![1], 0⟩ : GridDist1D 1).dist i = 1 := by simp
  have h2 : ∑ i, (⟨![1], ![1], 0, 0⟩ : DynamicDist1D 1).dist i = 1 := by simp
  have h3 := normalization_invariant (⟨![1], ![1], 0⟩ : GridDist1D 1) [GOp.waitU]
    (⟨![1], ![1], 0, 0⟩ : DynamicDist1D 1) [DOp.waitU 0] h1 ⟨trivial, trivial⟩ h2
    ⟨trivial, trivial⟩
  exact ⟨h1, h2, h3.1, h3.2⟩

/-- Counterexample to C1 as stated: on a normalized two-node grid, the single
call `update(t = 0, m = 1)` meets zero likelihood at every node (at `t = 0`
the excitation probability vanishes identically), so the "normalized"
posterior carries total mass 0, not 1. -/
theorem normalization_invariant_cex :
    (∑ i, (⟨![0.5, 1.5], ![1/2, 1/2], 0⟩ : GridDist1D 2).dist i = 1)
    ∧ ∑ i, ([GOp.update 0 1].foldl gstep
        (⟨![0.5, 1.5], ![1/2, 1/2], 0⟩ : GridDist1D 2)).dist i ≠ 1 := by
  constructor
  · simp [Fin.sum_univ_two]
    norm_num
  · simp [List.foldl, gstep, GridDist1D.update, normalize, likelihood, prob_excited,
      v_0, Fin.sum_univ_two]

/-! ## Claim C4 -/

/-- Claim C4 (code evaluated at the failing input): when every node's
likelihood vanishes — concretely `update(t = 0, m = 1)`, since
`prob_excited(0, ω) = 0` for every `ω` — `GridDist1D.update` divides by the
zero total mass.  In the real-valued embedding the posterior becomes
identically 0 (in numpy, all-NaN): it is neither renormalized nor left with
its prior shape, refuting the claimed internal recovery. -/
theorem degenerate_update_not_recovered :
    ((⟨![0.5, 1.5], ![1/2, 1/2], 0⟩ : GridDist1D 2).update 0 1).dist = (fun _ => 0)
    ∧ ∑ i, ((⟨![0.5, 1.5], ![1/2, 1/2], 0⟩ : GridDist1D 2).update 0 1).dist i ≠ 1 := by
  constructor
  · funext i
    simp [GridDist1D.update, normalize, likelihood, prob_excited, v_0]
  · simp [GridDist1D.update, normalize, likelihood, prob_excited, v_0,
      Fin.sum_univ_two]

/-! ## Claim C5 -/

/-- Claim C5 (amended): `GridDist1D.wait_u` preserves the total mass exactly
for every `v1`, and with `v1 = 0` it is the identity on the mass array (the
DCT/inverse-DCT round trip with unit damping factors, rescaled by `1/(2N)`,
is the identity).  The original claim's further assertion that the Ω-marginal
variance never decreases is false (see the counterexample): the reflecting
heat flow can contract a boundary-concentrated bimodal mass toward uniform. -/
theorem grid_wait_u_mass_noop {N : ℕ} (hN : 0 < N) (S : GridDist1D N) :
    (∑ i, S.wait_u.dist i = ∑ i, S.dist i) ∧ (S.v1 = 0 → S.wait_u.dist = S.dist) :=
  ⟨grid_wait_u_sum hN S, grid_wait_u_noop S⟩

/-- Witness for C5 on a concrete one-node grid with `v1 = 0`. -/
theorem grid_wait_u_mass_noop_witness :
    (∑ i, (⟨![1], ![1], 0⟩ : GridDist1D 1).wait_u.dist i
      = ∑ i, (⟨![1], ![1], 0⟩ : GridDist1D 1).dist i)
    ∧ (⟨![1], ![1], 0⟩ : GridDist1D 1).wait_u.dist = ![1] :=
  ⟨(grid_wait_u_mass_noop one_pos _).1, (grid_wait_u_mass_noop one_pos _).2 rfl⟩

/-- Explicit expansion of the inverse transform on a three-node grid. -/
theorem idct3_three (y : ℕ → ℝ) (n : ℕ) :
    idct3 3 y n = y 0 * Real.cos (dctAngle 3 0 n) + 2 * y 1 * Real.cos (dctAngle 3 1 n)
      + 2 * y 2 * Real.cos (dctAngle 3 2 n) := by
  unfold idct3
  rw [Fin.sum_univ_three]
  norm_num

/-- Counterexample to C5's variance monotonicity: on the three-node grid
`![0.1, 1.0, 1.9]` with mass `(1/2, 0, 1/2)` on the two boundary nodes and
`v1 = 1 > 0`, one `wait_u` call strictly decreases the Ω-marginal variance
(the reflecting heat flow pulls the bimodal boundary mass toward uniform,
whose variance is smaller). -/
theorem grid_wait_u_variance_cex :
    gridVar ((⟨![0.1, 1.0, 1.9], ![1/2, 0, 1/2], 1⟩ : GridDist1D 3).wait_u)
      < gridVar (⟨![0.1, 1.0, 1.9], ![1/2, 0, 1/2], 1⟩ : GridDist1D 3) := by
  set S3 : GridDist1D 3 := ⟨![0.1, 1.0, 1.9], ![1/2, 0, 1/2], 1⟩ with hS3
  set E : ℝ := Real.exp (-(fact 1) * 2 ^ 2) with hE
  have hd0 : dct2 3 S3.dist 0 = 2 := by
    rw [hS3]
    unfold dct2
    rw [Fin.sum_univ_three]
    norm_num [dctAngle]
  have hd1 : dct2 3 S3.dist 1 = 0 := by
    rw [hS3]
    unfold dct2
    rw [Fin.sum_univ_three]
    have a0 : dctAngle 3 1 0 = π / 6 := by unfold dctAngle; push_cast; ring
    have a1 : dctAngle 3 1 1 = π / 2 := by unfold dctAngle; push_cast; ring
    have a2 : dctAngle 3 1 2 = π - π / 6 := by unfold dctAngle; push_cast; ring
    norm_num [a0, a1, a2, Real.cos_pi_sub, Real.cos_pi_div_six, Real.cos_pi_div_two]
  have hd2 : dct2 3 S3.dist 2 = 1 := by
    rw [hS3]
    unfold dct2
    rw [Fin.sum_univ_three]
    have a0 : dctAngle 3 2 0 = π / 3 := by unfold dctAngle; push_cast; ring
    have a1 : dctAngle 3 2 1 = π := by unfold dctAngle; push_cast; ring
    have a2 : dctAngle 3 2 2 = 2 * π - π / 3 := by unfold dctAngle; push_cast; ring
    norm_num [a0, a1, a2, Real.cos_two_pi_sub, Real.cos_pi_div_three, Real.cos_pi]
  have hv1 : S3.v1 = 1 := rfl
  have hp0 : S3.wait_u.dist 0 = (2 + E) / 6 := by
    show idct3 3 (fun k => dct2 3 S3.dist k * Real.exp (-(fact S3.v1) * (k : ℝ) ^ 2)) _ / _
      = _
    rw [hv1, idct3_three]
    have a00 : dctAngle 3 0 0 = 0 := by unfold dctAngle; push_cast; ring
    have a10 : dctAngle 3 1 0 = π / 6 := by unfold dctAngle; push_cast; ring
    have a20 : dctAngle 3 2 0 = π / 3 := by unfold dctAngle; push_cast; ring
    rw [hE]
    norm_num [a00, a10, a20, hd0, hd1, hd2, Real.cos_zero, Real.cos_pi_div_six,
      Real.cos_pi_div_three, Real.exp_zero]
    ring
  have hp1 : S3.wait_u.dist 1 = (2 - 2 * E) / 6 := by
    show idct3 3 (fun k => dct2 3 S3.dist k * Real.exp (-(fact S3.v1) * (k : ℝ) ^ 2)) _ / _
      = _
    rw [hv1, idct3_three]
    have a01 : dctAngle 3 0 1 = 0 := by unfold dctAngle; push_cast; ring
    have a11 : dctAngle 3 1 1 = π / 2 := by unfold dctAngle; push_cast; ring
    have a21 : dctAngle 3 2 1 = π := by unfold dctAngle; push_cast; ring
    rw [hE]
    norm_num [a01, a11, a21, hd0, hd1, hd2, Real.cos_zero, Real.cos_pi_div_two, Real.cos_pi,
      Real.exp_zero]
    ring
  have hp2 : S3.wait_u.dist 2 = (2 + E) / 6 := by
    show idct3 3 (fun k => dct2 3 S3.dist k * Real.exp (-(fact S3.v1) * (k : ℝ) ^ 2)) _ / _
      = _
    rw [hv1, idct3_three]
    have a02 : dctAngle 3 0 2 = 0 := by unfold dctAngle; push_cast; ring
    have a12 : dctAngle 3 1 2 = π - π / 6 := by unfold dctAngle; push_cast; ring
    have a22 : dctAngle 3 2 2 = 2 * π - π / 3 := by unfold dctAngle; push_cast; ring
    rw [hE]
    norm_num [a02, a12, a22, hd0, hd1, hd2, Real.cos_zero, Real.cos_pi_sub,
      Real.cos_pi_div_six, Real.cos_two_pi_sub, Real.cos_pi_div_three, Real.exp_zero]
    ring
  have homega : S3.wait_u.omegas = ![0.1, 1.0, 1.9] := rfl
  have hElt : E < 1 := by
    rw [hE, Real.exp_lt_one_iff]
    have hf : 0 < fact 1 := by
      unfold fact omega_max omega_min
      positivity
    nlinarith
  have hEpos : 0 < E := Real.exp_pos _
  unfold gridVar
  rw [Fin.sum_univ_three, Fin.sum_univ_three, Fin.sum_univ_three, Fin.sum_univ_three,
    hp0, hp1, hp2, homega]
  rw [hS3]
  norm_num
  nlinarith

/-! ## Claim C2 -/

/-- Claim C2 (refuted on the code): the spec-modelled per-particle drift
`wait_u_indep` can move particle 1 by `0.1` while leaving particle 0 fixed,
but no draw of the source's `wait_u` can produce that state: the source calls
`np.random.normal` without a `size` argument, so all particles share one
scalar draw and (away from clipping) receive identical increments.  The
`target_cov` increment by `v1` itself is as claimed. -/
theorem dyn_wait_u_shared_draw :
    (DynamicDist1D.wait_u_indep (⟨![0.5, 1.5], ![1/2, 1/2], 0.01, 0⟩ : DynamicDist1D 2)
        ![0, 0.1]).omegas = ![0.5, 1.6]
    ∧ (∀ eps : ℝ,
        (DynamicDist1D.wait_u (⟨![0.5, 1.5], ![1/2, 1/2], 0.01, 0⟩ : DynamicDist1D 2)
          eps).omegas ≠ ![0.5, 1.6])
    ∧ (∀ eps : ℝ,
        (DynamicDist1D.wait_u (⟨![0.5, 1.5], ![1/2, 1/2], 0.01, 0⟩ : DynamicDist1D 2)
          eps).target_cov = 0 + 0.01) := by
  refine ⟨?_, ?_, fun eps => rfl⟩
  · funext i
    fin_cases i <;>
      norm_num [DynamicDist1D.wait_u_indep, perturb_omega, clip_omega, omega_min, omega_max,
        min_def, max_def]
  · intro eps h
    have h0 := congrFun h 0
    have h1 := congrFun h 1
    simp only [DynamicDist1D.wait_u, perturb_omega, clip_omega, omega_min, omega_max,
      Matrix.cons_val_zero, Matrix.cons_val_one, Matrix.head_cons] at h0 h1
    rcases le_total (0.5 + eps) 0.1 with hc | hc
    · rw [max_eq_right hc] at h0
      norm_num [min_def] at h0
    · rw [max_eq_left hc] at h0
      rcases le_total (0.5 + eps) 1.9 with hd | hd
      · rw [min_eq_left hd] at h0
        have heps : eps = 0 := by linarith
        rw [heps] at h1
        norm_num [min_def, max_def] at h1
      · rw [min_eq_right hd] at h0
        norm_num at h0

/-! ## Claim C3 -/

/-- Claim C3 (amended to `N ≥ 3`): a `DynamicDist1D` whose weight sits
entirely on one particle `j` has `ESS = 1` after an `update` whose surviving
likelihood is nonzero; since `1 < n_ess_limit·N = N/2` exactly when `N ≥ 3`,
the update takes the resample branch and leaves uniform weights.  (At `N = 2`
the strict test `1 < 1` fails — see the counterexample.) -/
theorem ess_resample_trigger {n : ℕ} (S : DynamicDist1D n) (t : ℝ) (m : ℕ) (j : Fin n)
    (idx : Fin n → Fin n) (u1 u2 : Fin n → ℝ) (hn : 3 ≤ n)
    (hdist : S.dist = fun i => if i = j then 1 else 0)
    (hL : likelihood (S.omegas j) t m ≠ 0) :
    DynamicDist1D.n_ess (normalize fun i => S.dist i * likelihood (S.omegas i) t m)
        < n_ess_limit * n
    ∧ (S.update t m idx u1 u2).dist = fun _ => 1 / (n : ℝ) := by
  have hd1 : (fun i => S.dist i * likelihood (S.omegas i) t m)
      = fun i => if i = j then likelihood (S.omegas j) t m else 0 := by
    funext i
    rw [hdist]
    by_cases hij : i = j
    · subst hij
      simp
    · simp [hij]
  have hd2 : normalize (fun i => S.dist i * likelihood (S.omegas i) t m)
      = fun i => if i = j then 1 else 0 := by
    rw [hd1]
    funext i
    unfold normalize
    rw [Finset.sum_ite_eq' Finset.univ j (fun _ => likelihood (S.omegas j) t m),
      if_pos (Finset.mem_univ j)]
    by_cases hij : i = j
    · subst hij
      simp [div_self hL]
    · simp [hij]
  have hcond : DynamicDist1D.n_ess
      (normalize fun i => S.dist i * likelihood (S.omegas i) t m) < n_ess_limit * n := by
    rw [hd2]
    unfold DynamicDist1D.n_ess
    have hsq : (∑ i : Fin n, (if i = j then (1 : ℝ) else 0) ^ 2) = 1 := by
      have hpt : ∀ i : Fin n, (if i = j then (1 : ℝ) else 0) ^ 2
          = if i = j then 1 else 0 := by
        intro i
        by_cases hij : i = j <;> simp [hij]
      rw [Finset.sum_congr rfl (fun i _ => hpt i),
        Finset.sum_ite_eq' Finset.univ j (fun _ => (1 : ℝ)),
        if_pos (Finset.mem_univ j)]
    rw [hsq]
    unfold n_ess_limit
    have hn' : (3 : ℝ) ≤ (n : ℝ) := by exact_mod_cast hn
    norm_num
    linarith
  refine ⟨hcond, ?_⟩
  simp only [DynamicDist1D.update]
  rw [if_pos hcond, resample_dist]

/-- Witness for C3 at `N = 3`: weight `(1, 0, 0)`, measurement `(t, m) = (0, 0)`
whose likelihood is `1` at every omega. -/
theorem ess_resample_trigger_witness :
    DynamicDist1D.n_ess (normalize fun i =>
        (⟨![0.5, 1.0, 1.5], ![1, 0, 0], 0, 0⟩ : DynamicDist1D 3).dist i *
          likelihood ((⟨![0.5, 1.0, 1.5], ![1, 0, 0], 0, 0⟩ : DynamicDist1D 3).omegas i) 0 0)
        < n_ess_limit * (3 : ℕ)
    ∧ ((⟨![0.5, 1.0, 1.5], ![1, 0, 0], 0, 0⟩ : DynamicDist1D 3).update 0 0 id
        (fun _ => 0) (fun _ => 0)).dist = fun _ => 1 / ((3 : ℕ) : ℝ) := by
  refine ess_resample_trigger _ 0 0 0 id _ _ (by norm_num) ?_ ?_
  · funext i
    fin_cases i <;> simp
  · norm_num [likelihood, prob_excited, v_0]

/-- Counterexample to C3 at `N = 2`: weight `(1, 0)` gives `ESS = 1` and the
threshold is `n_ess_limit·2 = 1`, so the strict comparison `1 < 1` fails and
`update` does not resample — the weights stay `(1, 0)` instead of the uniform
`(1/2, 1/2)` a resample would install. -/
theorem ess_resample_trigger_cex :
    ¬ (DynamicDist1D.n_ess (normalize fun i =>
        (⟨![0.5, 1.5], ![1, 0], 0, 0⟩ : DynamicDist1D 2).dist i *
          likelihood ((⟨![0.5, 1.5], ![1, 0], 0, 0⟩ : DynamicDist1D 2).omegas i) 0 0)
        < n_ess_limit * ((2 : ℕ) : ℝ))
    ∧ ((⟨![0.5, 1.5], ![1, 0], 0, 0⟩ : DynamicDist1D 2).update 0 0 id
        (fun _ => 0) (fun _ => 0)).dist = ![1, 0] := by
  have hd2 : normalize (fun i =>
      (⟨![0.5, 1.5], ![1, 0], 0, 0⟩ : DynamicDist1D 2).dist i *
        likelihood ((⟨![0.5, 1.5], ![1, 0], 0, 0⟩ : DynamicDist1D 2).omegas i) 0 0)
      = ![1, 0] := by
    funext i
    fin_cases i <;>
      norm_num [normalize, likelihood, prob_excited, v_0, Fin.sum_univ_two]
  have hcond : ¬ (DynamicDist1D.n_ess (normalize fun i =>
      (⟨![0.5, 1.5], ![1, 0], 0, 0⟩ : DynamicDist1D 2).dist i *
        likelihood ((⟨![0.5, 1.5], ![1, 0], 0, 0⟩ : DynamicDist1D 2).omegas i) 0 0)
      < n_ess_limit * ((2 : ℕ) : ℝ)) := by
    rw [hd2]
    norm_num [DynamicDist1D.n_ess, n_ess_limit, Fin.sum_univ_two]
  refine ⟨hcond, ?_⟩
  simp only [DynamicDist1D.update]
  rw [if_neg hcond]
  exact hd2

/-! ## Claim C6 -/

/-- Fact: `clip_omega` fixes in-range values. -/
theorem clip_omega_eq_self {x : ℝ} (h1 : omega_min ≤ x) (h2 : x ≤ omega_max) :
    clip_omega x = x := by
  unfold clip_omega
  rw [max_eq_left h1, min_eq_left h2]

/-- Claim C6: after `resample` redraws particles (via the index array `idx`)
and resets weights to `1/N`: if the recomputed covariance is at least
`target_cov`, `target_cov` becomes that covariance and the particles are
unchanged; otherwise each particle receives an independent double-sided
exponential jitter — the difference of two matched-scale exponential draws —
with scale `sqrt(b·(target_cov − cov_new)/2)`, and is clipped to the omega
bounds.  Particles are assumed in range (an invariant of every reachable
state, since they come from the grid or from `clip_omega`). -/
theorem resample_spec {n : ℕ} (S : DynamicDist1D n) (idx : Fin n → Fin n)
    (u1 u2 : Fin n → ℝ)
    (hb : ∀ i, omega_min ≤ S.omegas i ∧ S.omegas i ≤ omega_max) :
    ((S.resample idx u1 u2).dist = fun _ => 1 / (n : ℝ))
    ∧ (wcov (fun _ => 1 / (n : ℝ)) (fun i => S.omegas (idx i)) ≥ S.target_cov →
        (S.resample idx u1 u2).target_cov
            = wcov (fun _ => 1 / (n : ℝ)) (fun i => S.omegas (idx i))
        ∧ (S.resample idx u1 u2).omegas = fun i => S.omegas (idx i))
    ∧ (wcov (fun _ => 1 / (n : ℝ)) (fun i => S.omegas (idx i)) < S.target_cov →
        (S.resample idx u1 u2).target_cov = S.target_cov
        ∧ ∀ i, (S.resample idx u1 u2).omegas i
            = clip_omega (S.omegas (idx i)
                + Real.sqrt (dyn_b *
                    (S.target_cov - wcov (fun _ => 1 / (n : ℝ)) (fun i => S.omegas (idx i)))
                      / 2)
                  * (u1 i - u2 i))) := by
  simp only [DynamicDist1D.resample]
  by_cases hgt : wcov (fun _ => 1 / (n : ℝ)) (fun i => S.omegas (idx i)) > S.target_cov
  · rw [if_pos hgt]
    refine ⟨rfl, fun _ => ⟨rfl, rfl⟩, fun hlt => absurd hgt (not_lt.mpr hlt.le)⟩
  · rw [if_neg hgt]
    refine ⟨rfl, ?_, ?_⟩
    · intro hge
      have heq : wcov (fun _ => 1 / (n : ℝ)) (fun i => S.omegas (idx i)) = S.target_cov :=
        le_antisymm (not_lt.mp hgt) hge
      refine ⟨heq.symm, ?_⟩
      funext i
      have hs : Real.sqrt (dyn_b *
          (S.target_cov - wcov (fun _ => 1 / (n : ℝ)) (fun i => S.omegas (idx i))) / 2)
          = 0 := by
        rw [heq]
        norm_num
      rw [hs]
      simpa using clip_omega_eq_self (hb (idx i)).1 (hb (idx i)).2
    · intro _
      refine ⟨rfl, fun i => ?_⟩
      ring_nf

/-- Witness for C6 on a concrete two-particle state with in-range particles. -/
theorem resample_spec_witness :
    ((⟨![0.5, 1.5], ![1/2, 1/2], 0, 0⟩ : DynamicDist1D 2).resample id
        (fun _ => 0) (fun _ => 0)).dist = fun _ => 1 / ((2 : ℕ) : ℝ) :=
  (resample_spec (⟨![0.5, 1.5], ![1/2, 1/2], 0, 0⟩ : DynamicDist1D 2) id
    (fun _ => 0) (fun _ => 0)
    (by
      intro i
      fin_cases i <;> constructor <;> norm_num [omega_min, omega_max])).1

/-! ## Claims C7 and C8 -/

/-- Fact: `tau_m(mm) ≤ t_max` exactly when `mm` is below the code's closed-form
bound `(t_max(ω1+ω2)/π - 1)/2`. -/
theorem tau_m_le_t_max_iff (omega1 omega2 : ℝ) (hsum : 0 < omega1 + omega2) (mm : ℝ) :
    TwoPointChooser.tau_m omega1 omega2 mm ≤ t_max
      ↔ mm ≤ (t_max * (omega1 + omega2) / π - 1) / 2 := by
  unfold TwoPointChooser.tau_m
  rw [div_le_iff₀ hsum]
  constructor
  · intro h
    have h3 : 2 * mm + 1 ≤ t_max * (omega1 + omega2) / π := by
      rw [le_div_iff₀ Real.pi_pos]
      linarith
    linarith
  · intro h
    have h3 : 2 * mm + 1 ≤ t_max * (omega1 + omega2) / π := by linarith
    have h4 := (le_div_iff₀ Real.pi_pos).mp h3
    linarith

/-- Claim C7: in the non-random branch with distinct extremes `0 < ω1 < ω2`,
if `τ_m(0) > t_max` the chooser returns `t_max`; if `τ_m(0) ≤ t_max < τ_n(0)`
it returns `τ_m(m*)` where the code's floor expression computes exactly the
greatest integer `m` with `τ_m(m) ≤ t_max`. -/
theorem two_point_floor_time (sd : ℕ) (omega1 omega2 uD : ℝ)
    (h1 : 0 < omega1) (h12 : omega1 < omega2) :
    (TwoPointChooser.tau_m omega1 omega2 0 > t_max →
        TwoPointChooser.get_t_main sd omega1 omega2 uD = t_max)
    ∧ (TwoPointChooser.tau_m omega1 omega2 0 ≤ t_max →
        t_max < TwoPointChooser.tau_n omega1 omega2 0 →
        TwoPointChooser.get_t_main sd omega1 omega2 uD
          = TwoPointChooser.tau_m omega1 omega2
              ((⌊(t_max * (omega1 + omega2) / π - 1) / 2⌋ : ℤ) : ℝ)
        ∧ IsGreatest {mm : ℤ | TwoPointChooser.tau_m omega1 omega2 (mm : ℝ) ≤ t_max}
            ⌊(t_max * (omega1 + omega2) / π - 1) / 2⌋) := by
  have hsum : 0 < omega1 + omega2 := by linarith
  have hne : omega1 ≠ omega2 := ne_of_lt h12
  constructor
  · intro hgt
    unfold TwoPointChooser.get_t_main
    rw [if_neg hne, if_pos hgt]
  · intro hle hgtn
    refine ⟨?_, ?_, ?_⟩
    · unfold TwoPointChooser.get_t_main
      rw [if_neg hne, if_neg (not_lt.mpr hle), if_pos hgtn]
    · show TwoPointChooser.tau_m omega1 omega2 _ ≤ t_max
      rw [tau_m_le_t_max_iff omega1 omega2 hsum]
      exact Int.floor_le _
    · intro mm hmm
      rw [Set.mem_setOf_eq, tau_m_le_t_max_iff omega1 omega2 hsum] at hmm
      exact Int.le_floor.mpr hmm

/-- Witness for C7 at `ω1 = 1`, `ω2 = 1.1`: `τ_m(0) = π/2.1 ≤ 4π < 10π = τ_n(0)`,
and the floor expression evaluates to `m* = ⌊3.7⌋ = 3`. -/
theorem two_point_floor_time_witness :
    TwoPointChooser.get_t_main 5 1 1.1 0
      = TwoPointChooser.tau_m 1 1.1 ((⌊(t_max * (1 + 1.1) / π - 1) / 2⌋ : ℤ) : ℝ)
    ∧ ⌊(t_max * (1 + 1.1) / π - 1) / 2⌋ = 3 := by
  have hr : (t_max * (1 + 1.1) / π - 1) / 2 = 3.7 := by
    unfold t_max
    rw [show (4 * π * (1 + 1.1) / π : ℝ) = 4 * (1 + 1.1) * (π / π) by ring,
      div_self Real.pi_ne_zero]
    norm_num
  have hfl : ⌊(t_max * (1 + 1.1) / π - 1) / 2⌋ = 3 := by
    rw [hr, Int.floor_eq_iff]
    norm_num
  refine ⟨?_, hfl⟩
  have hM : TwoPointChooser.tau_m 1 1.1 0 ≤ t_max := by
    unfold TwoPointChooser.tau_m t_max
    rw [div_le_iff₀ (by norm_num)]
    nlinarith [Real.pi_pos]
  have hN : t_max < TwoPointChooser.tau_n 1 1.1 0 := by
    unfold TwoPointChooser.tau_n t_max
    rw [show |(1 : ℝ) - 1.1| = 0.1 by rw [abs_sub_comm]; norm_num [abs_of_nonneg]]
    rw [lt_div_iff₀ (by norm_num)]
    nlinarith [Real.pi_pos]
  exact ((two_point_floor_time 5 1 1.1 0 (by norm_num) (by norm_num)).2 hM hN).1

/-- Claim C8: in the degenerate non-random branch (`ω1 = ω2`) the chooser
returns the uniform draw from `[0.7·t_max, t_max]`, hence a value in that
interval. -/
theorem two_point_degenerate (sd : ℕ) (omega1 omega2 uD : ℝ) (heq : omega1 = omega2)
    (h1 : 0.7 * t_max ≤ uD) (h2 : uD ≤ t_max) :
    0.7 * t_max ≤ TwoPointChooser.get_t_main sd omega1 omega2 uD
    ∧ TwoPointChooser.get_t_main sd omega1 omega2 uD ≤ t_max := by
  unfold TwoPointChooser.get_t_main
  rw [if_pos heq]
  exact ⟨h1, h2⟩

/-- Witness for C8 with both extreme samples equal to `1` and the draw at the
lower endpoint. -/
theorem two_point_degenerate_witness :
    0.7 * t_max ≤ TwoPointChooser.get_t_main 0 1 1 (0.7 * t_max)
    ∧ TwoPointChooser.get_t_main 0 1 1 (0.7 * t_max) ≤ t_max := by
  have ht : 0 < t_max := by unfold t_max; positivity
  exact two_point_degenerate 0 1 1 (0.7 * t_max) rfl (le_refl _) (by linarith)

/-! ## Claim C10 -/

/-- The greedy search only ever records a best pair after checking that both
of its candidate times are within `t_max`, so the invariant
`τ_n(nb) ≤ t_max ∧ τ_m(mb) ≤ t_max` is preserved from the initial best pair. -/
theorem search_loop_inv (omega1 omega2 : ℝ) :
    ∀ (fuel : ℕ) (nm best : ℕ × ℕ) (mind : ℝ),
      TwoPointChooser.tau_n omega1 omega2 best.1 ≤ t_max →
      TwoPointChooser.tau_m omega1 omega2 best.2 ≤ t_max →
      TwoPointChooser.tau_n omega1 omega2
          (TwoPointChooser.search_loop omega1 omega2 fuel nm best mind).1 ≤ t_max
      ∧ TwoPointChooser.tau_m omega1 omega2
          (TwoPointChooser.search_loop omega1 omega2 fuel nm best mind).2 ≤ t_max
  | 0, nm, best, mind, h1, h2 => by
    simpa only [TwoPointChooser.search_loop] using ⟨h1, h2⟩
  | fuel + 1, nm, best, mind, h1, h2 => by
    simp only [TwoPointChooser.search_loop]
    by_cases hA : TwoPointChooser.tau_n omega1 omega2 nm.1
        < TwoPointChooser.tau_m omega1 omega2 nm.2
    · simp only [hA, if_true]
      by_cases hB : max (TwoPointChooser.tau_n omega1 omega2 ((nm.1 + 1 : ℕ) : ℝ))
          (TwoPointChooser.tau_m omega1 omega2 nm.2) > t_max
      · rw [if_pos hB]
        exact ⟨h1, h2⟩
      · rw [if_neg hB]
        have hle := max_le_iff.mp (not_lt.mp hB)
        by_cases hC : |TwoPointChooser.tau_n omega1 omega2 ((nm.1 + 1 : ℕ) : ℝ)
            - TwoPointChooser.tau_m omega1 omega2 nm.2| < mind
        · rw [if_pos hC]
          exact search_loop_inv omega1 omega2 fuel _ _ _ hle.1 hle.2
        · rw [if_neg hC]
          exact search_loop_inv omega1 omega2 fuel _ _ _ h1 h2
    · simp only [hA, if_false]
      by_cases hB : max (TwoPointChooser.tau_n omega1 omega2 nm.1)
          (TwoPointChooser.tau_m omega1 omega2 ((nm.2 + 1 : ℕ) : ℝ)) > t_max
      · rw [if_pos hB]
        exact ⟨h1, h2⟩
      · rw [if_neg hB]
        have hle := max_le_iff.mp (not_lt.mp hB)
        by_cases hC : |TwoPointChooser.tau_n omega1 omega2 nm.1
            - TwoPointChooser.tau_m omega1 omega2 ((nm.2 + 1 : ℕ) : ℝ)| < mind
        · rw [if_pos hC]
          exact search_loop_inv omega1 omega2 fuel _ _ _ hle.1 hle.2
        · rw [if_neg hC]
          exact search_loop_inv omega1 omega2 fuel _ _ _ h1 h2

/-- Claim C10: with extreme samples inside `[omega_min, omega_max]`
(`omega_min > 0`) and in-range uniform draws, `get_t` returns a time in
`[0, t_max]` on every execution path: the random fallback, the degenerate
branch, both early-return fallbacks, and the greedy search, whose tracked
best pair always has `τ_n(nb) ≤ t_max` and `τ_m(mb) ≤ t_max`. -/
theorem get_t_bounds (sd : ℕ) (coin : Bool) (uR uD omega1 omega2 : ℝ)
    (ho1 : omega_min ≤ omega1) (ho12 : omega1 ≤ omega2) (ho2 : omega2 ≤ omega_max)
    (huR1 : 0 ≤ uR) (huR2 : uR ≤ t_max) (huD1 : 0.7 * t_max ≤ uD) (huD2 : uD ≤ t_max) :
    0 ≤ TwoPointChooser.get_t sd coin uR uD omega1 omega2
    ∧ TwoPointChooser.get_t sd coin uR uD omega1 omega2 ≤ t_max := by
  have htpos : 0 < t_max := by unfold t_max; positivity
  have ho1pos : 0 < omega1 := lt_of_lt_of_le (by norm_num [omega_min]) ho1
  have hsum : 0 < omega1 + omega2 := by linarith
  unfold TwoPointChooser.get_t
  cases coin with
  | true => rw [if_pos rfl]; exact ⟨huR1, huR2⟩
  | false =>
    rw [if_neg Bool.false_ne_true]
    simp only [TwoPointChooser.get_t_main]
    split_ifs with hEq hM hN hnb
    · exact ⟨by linarith, huD2⟩
    · exact ⟨htpos.le, le_refl _⟩
    · have hMle : TwoPointChooser.tau_m omega1 omega2 0 ≤ t_max := not_lt.mp hM
      have hfl0 : (0 : ℤ) ≤ ⌊(t_max * (omega1 + omega2) / π - 1) / 2⌋ := by
        rw [Int.le_floor]
        have h0r := (tau_m_le_t_max_iff omega1 omega2 hsum 0).mp hMle
        exact_mod_cast h0r
      constructor
      · unfold TwoPointChooser.tau_m
        apply div_nonneg _ hsum.le
        have hc : (0 : ℝ) ≤ ((⌊(t_max * (omega1 + omega2) / π - 1) / 2⌋ : ℤ) : ℝ) := by
          exact_mod_cast hfl0
        nlinarith [Real.pi_pos]
      · rw [tau_m_le_t_max_iff omega1 omega2 hsum]
        exact Int.floor_le _
    all_goals {
      have hMle : TwoPointChooser.tau_m omega1 omega2 0 ≤ t_max := not_lt.mp hM
      have hNle : TwoPointChooser.tau_n omega1 omega2 0 ≤ t_max := not_lt.mp hN
      have hinit1 : TwoPointChooser.tau_n omega1 omega2 (((0, 0) : ℕ × ℕ).1 : ℕ)
          ≤ t_max := by
        dsimp only
        rw [Nat.cast_zero]
        exact hNle
      have hinit2 : TwoPointChooser.tau_m omega1 omega2 (((0, 0) : ℕ × ℕ).2 : ℕ)
          ≤ t_max := by
        dsimp only
        rw [Nat.cast_zero]
        exact hMle
      have hinv := search_loop_inv omega1 omega2 sd (0, 0) (0, 0)
        |TwoPointChooser.tau_n omega1 omega2 0 - TwoPointChooser.tau_m omega1 omega2 0|
        hinit1 hinit2
      have habs : (0 : ℝ) < |omega1 - omega2| := by
        rw [abs_pos, sub_ne_zero]
        exact hEq
      have hmnn : ∀ k : ℕ, 0 ≤ TwoPointChooser.tau_m omega1 omega2 (k : ℝ) := by
        intro k
        unfold TwoPointChooser.tau_m
        apply div_nonneg _ hsum.le
        positivity
      have hnnn : ∀ k : ℕ, 0 ≤ TwoPointChooser.tau_n omega1 omega2 (k : ℝ) := by
        intro k
        unfold TwoPointChooser.tau_n
        apply div_nonneg _ (abs_nonneg _)
        positivity
      first
        | exact ⟨hmnn _, hinv.2⟩
        | exact ⟨by
            have := hmnn (TwoPointChooser.search_loop omega1 omega2 sd (0, 0) (0, 0)
              |TwoPointChooser.tau_n omega1 omega2 0 -
                TwoPointChooser.tau_m omega1 omega2 0|).2
            have := hnnn (TwoPointChooser.search_loop omega1 omega2 sd (0, 0) (0, 0)
              |TwoPointChooser.tau_n omega1 omega2 0 -
                TwoPointChooser.tau_m omega1 omega2 0|).1
            linarith,
          by
            have h1 := hinv.1
            have h2 := hinv.2
            linarith⟩
    }

/-- Witness for C10 on the random-fallback path with samples at `1`. -/
theorem get_t_bounds_witness :
    0 ≤ TwoPointChooser.get_t 5 true 0 t_max 1 1
    ∧ TwoPointChooser.get_t 5 true 0 t_max 1 1 ≤ t_max := by
  have htpos : 0 < t_max := by unfold t_max; positivity
  exact get_t_bounds 5 true 0 t_max 1 1 (by norm_num [omega_min]) (le_refl _)
    (by norm_num [omega_max]) (le_refl _) htpos.le (by linarith) (le_refl _)

/-! ## Claim C9 -/

/-- Claim C9: over a ground-truth trajectory of length `L`, `many_measure`
performs exactly `L` steps; each step, in order, chooses `t` from the current
distribution, measures the outcome with that step's true omega and `t`, then
applies `wait_u` followed by `update t m` (the content of `stepState`); and it
returns the `L` chosen times in order — the `j`-th returned time is the
chooser's output on the state reached after the first `j` full steps. -/
theorem many_measure_spec {σ : Type} (waitU : σ → σ) (update : ℝ → ℕ → σ → σ)
    (choose : ℕ → σ → ℝ) (meas : ℕ → ℝ → ℝ → ℕ) :
    ∀ (omega_list : List ℝ) (i : ℕ) (S : σ),
      (many_measure waitU update choose meas i omega_list S).1.length = omega_list.length
      ∧ (many_measure waitU update choose meas i omega_list S).2
          = run_state waitU update choose meas i omega_list S
      ∧ ∀ j, j < omega_list.length →
          (many_measure waitU update choose meas i omega_list S).1.getD j 0
            = choose (i + j) (run_state waitU update choose meas i (omega_list.take j) S)
  | [], i, S => by
    refine ⟨rfl, rfl, ?_⟩
    intro j hj
    simp at hj
  | omega :: rest, i, S => by
    obtain ⟨hlen, hstate, hget⟩ := many_measure_spec waitU update choose meas rest (i + 1)
      (stepState waitU update choose meas i omega S)
    have hS' : update (choose i S) (meas i omega (choose i S)) (waitU S)
        = stepState waitU update choose meas i omega S := rfl
    refine ⟨?_, ?_, ?_⟩
    · simp only [many_measure, List.length_cons, hS', hlen]
    · simp only [many_measure, run_state, hS']
      exact hstate
    · intro j hj
      cases j with
      | zero =>
        simp only [many_measure, List.getD_cons_zero, List.take_zero, run_state,
          Nat.add_zero]
      | succ j =>
        have hj' : j < rest.length := by
          simpa using hj
        have hg := hget j hj'
        simp only [many_measure, List.getD_cons_succ, List.take_succ_cons, run_state, hS']
        rw [hg]
        congr 1
        omega

/-- Witness for C9: a grid posterior, a constant chooser and a constant
measurement over a length-one trajectory; the single returned time is the
chooser's output on the initial state. -/
theorem many_measure_spec_witness :
    (many_measure GridDist1D.wait_u (fun t m S => S.update t m) (fun _ _ => 1)
        (fun _ _ _ => 0) 0 [1] (⟨![1], ![1], 0⟩ : GridDist1D 1)).1.length = 1
    ∧ (many_measure GridDist1D.wait_u (fun t m S => S.update t m) (fun _ _ => 1)
        (fun _ _ _ => 0) 0 [1] (⟨![1], ![1], 0⟩ : GridDist1D 1)).1.getD 0 0 = 1 := by
  obtain ⟨hlen, _, hget⟩ := many_measure_spec GridDist1D.wait_u
    (fun t m S => S.update t m) (fun _ _ => 1) (fun _ _ _ => 0) [1] 0
    (⟨![1], ![1], 0⟩ : GridDist1D 1)
  exact ⟨hlen, hget 0 (by norm_num)⟩

end FreqEst
